import Mathlib

/-!
# thats-delicious: Store and User models, user controller

A shallow embedding of `models/Store.js` (the slug pre-save hook and the two
aggregation pipelines) and of `controllers/userController.js` (upload filter,
resize step, account update), with the properties of the design specification
stated over it.

Strings are compared through their character lists. The external collaborators
(the `slugs` package, the regular-expression engine, MongoDB's aggregation
stages and their double arithmetic, Mongoose's `findOneAndUpdate`, multer) are
modelled by the definitions marked as such below or taken as parameters.
-/

namespace Delicious

/-! ## Regular expressions: the fragment used by the slug pattern -/

/-- The regular-expression syntax that `^(<slug>)((-[0-9]*$)?)$` is written in. -/
inductive Pattern where
  | bol : Pattern
  | eol : Pattern
  | char : Char → Pattern
  | digit : Pattern
  | empty : Pattern
  | seq : Pattern → Pattern → Pattern
  | group : Pattern → Pattern
  | opt : Pattern → Pattern
  | star : Pattern → Pattern
  deriving DecidableEq, Repr

/-- Canonicalisation of a character under the `i` flag. For the ASCII pattern
characters of a slug only the ASCII letters fold. -/
def canonicalize (c : Char) : Char := c.toUpper

/-- Case-insensitive equality of two character sequences. -/
def ciEq (xs ys : List Char) : Bool := xs.map canonicalize == ys.map canonicalize

/-- Greedy iteration of a matcher with backtracking: every way of applying `f`
repeatedly, an iteration that consumes nothing being rejected. -/
def iterate (f : List Char → List (List Char)) : Nat → List Char → List (List Char)
  | 0, rest => [rest]
  | fuel + 1, rest =>
    ((f rest).filter (fun r => r.length < rest.length)).flatMap (iterate f fuel) ++ [rest]

/-- All the ways pattern `p` can match at the position where `rest` remains of
`input`: the list of what remains after each match, in backtracking order.
The pattern is matched with the `i` flag and without the `m` flag: `^` holds at
the start of the input only and `$` at its end only. -/
def Pattern.step (input : List Char) : Pattern → List Char → List (List Char)
  | .bol, rest => if rest.length = input.length then [rest] else []
  | .eol, rest => if rest.isEmpty then [rest] else []
  | .char c, rest =>
    match rest with
    | [] => []
    | x :: xs => if canonicalize x = canonicalize c then [xs] else []
  | .digit, rest =>
    match rest with
    | [] => []
    | x :: xs => if x.isDigit then [xs] else []
  | .empty, rest => [rest]
  | .seq p q, rest => (p.step input rest).flatMap (q.step input)
  | .group p, rest => p.step input rest
  | .opt p, rest => p.step input rest ++ [rest]
  | .star p, rest => iterate (p.step input) rest.length rest

/-- Whether the pattern matches somewhere in the input (`RegExp.prototype.test`,
the `$regex` query operator): a match may start at any position. -/
def Pattern.test (p : Pattern) (input : List Char) : Bool :=
  input.tails.any (fun rest => !(p.step input rest).isEmpty)

/-- The characters of the interpolated text, each a literal pattern character. -/
def literal : List Char → Pattern
  | [] => .empty
  | c :: cs => .seq (.char c) (literal cs)

/-- Characters that stand for themselves in a pattern: ASCII letters, digits,
underscore and hyphen (the alphabet of the `slugs` package's output). -/
def isPatternLiteral (c : Char) : Bool := c.isAlphanum || c == '_' || c == '-'

/-- The pattern of `new RegExp(`^(${slug})((-[0-9]*$)?)$`, 'i')` for a slug made
of literal pattern characters. -/
def slugRegEx (slug : String) : Pattern :=
  .seq .bol
    (.seq (.group (literal slug.toList))
      (.seq (.group (.opt (.group (.seq (.char '-') (.seq (.star .digit) .eol))))) .eol))

/-! ## The Store model -/

/-- The `location` sub-document of a store. -/
structure Location where
  type : String
  coordinates : List ℚ
  address : String
  deriving DecidableEq

/-- A store document (`storeSchema`). The slug is not a required path. -/
structure Store where
  _id : Nat
  name : String
  slug : Option String
  description : Option String
  tags : List String
  created : Nat
  location : Location
  photo : Option String
  author : Nat
  deriving DecidableEq

/-- A store document being saved, with the paths Mongoose tracks as modified. -/
structure StoreDocument where
  doc : Store
  modifiedPaths : List String
  deriving DecidableEq

/-- Mongoose's `isModified(path)`. -/
def StoreDocument.isModified (this : StoreDocument) (path : String) : Bool :=
  this.modifiedPaths.contains path

/-- The query `find` on `slug` with a pattern, over the persisted stores: a
store without a slug matches no pattern. -/
def find (persisted : List Store) (slugRegEx : Pattern) : List Store :=
  persisted.filter fun st =>
    match st.slug with
    | none => false
    | some sl => slugRegEx.test sl.toList

/-- What the pre-save hook leaves behind: the document handed to `next()` and
the queries it issued. -/
structure HookResult where
  doc : StoreDocument
  queries : List Pattern
  deriving DecidableEq

/-- The hook `storeSchema.pre('save', ...)`. `slug` is the `slugs` package,
`persisted` the collection the hook's `find` reads. -/
def preSave (slug : String → String) (persisted : List Store) (this : StoreDocument) :
    HookResult :=
  if !this.isModified "name" then
    ⟨this, []⟩
  else
    let thisSlug := slug this.doc.name
    let slugRegEx := slugRegEx thisSlug
    let storesWithSlug := find persisted slugRegEx
    if storesWithSlug.length != 0 then
      ⟨{ this with doc := { this.doc with
            slug := some (thisSlug ++ "-" ++ toString storesWithSlug.length) } },
        [slugRegEx]⟩
    else
      ⟨{ this with doc := { this.doc with slug := some thisSlug } }, [slugRegEx]⟩

/-- The persisted slugs the pattern of slug `s` selects, said without the
pattern: `s` itself, or `s` followed by a hyphen and any number of decimal
digits (none included), letter case being ignored. -/
def matchesSlug (s x : List Char) : Bool :=
  ciEq x s ||
    (ciEq (x.take s.length) s && (x.drop s.length).head? == some '-' &&
      (x.drop s.length).tail.all Char.isDigit)

/-- The number of persisted stores whose slug `matchesSlug` selects. -/
def matchCount (s : String) (persisted : List Store) : Nat :=
  (persisted.filter fun st =>
    match st.slug with
    | none => false
    | some sl => matchesSlug s.toList sl.toList).length

/-- The selection as the specification words it: the slug equals `s`, letter
case ignored, or is `s` followed by a hyphen and digits (at least one). -/
def statedMatchesSlug (s x : List Char) : Bool :=
  ciEq x s ||
    (ciEq (x.take s.length) s && (x.drop s.length).head? == some '-' &&
      !(x.drop s.length).tail.isEmpty && (x.drop s.length).tail.all Char.isDigit)

/-- The number of persisted stores that `statedMatchesSlug` selects. -/
def statedCount (s : String) (persisted : List Store) : Nat :=
  (persisted.filter fun st =>
    match st.slug with
    | none => false
    | some sl => statedMatchesSlug s.toList sl.toList).length

/-- A model of the external `slugs` package on ASCII names: lower-case, turn
`.`, `=` and `-` into spaces, trim, drop what is neither a word character nor a
space, turn spaces into hyphens. It instantiates the hook at concrete inputs;
the theorems hold for any slug function. -/
def slugs (name : String) : String :=
  let lowered := name.toList.map Char.toLower
  let spaced := lowered.map fun c => if c = '.' ∨ c = '=' ∨ c = '-' then ' ' else c
  let trimmed := ((spaced.dropWhile Char.isWhitespace).reverse.dropWhile Char.isWhitespace).reverse
  let kept := trimmed.filter fun c => c.isAlphanum || c == '_' || c == ' '
  String.mk (kept.map fun c => if c = ' ' then '-' else c)

/-- A store document with the given id, name and slug, the other paths at rest. -/
def sampleStore (id : Nat) (name : String) (slug : Option String) : Store :=
  { _id := id, name := name, slug := slug, description := none, tags := [], created := 0,
    location := { type := "Point", coordinates := [], address := "" }, photo := none,
    author := 0 }

/-- A new document: every path that was set counts as modified. -/
def newDocument (doc : Store) : StoreDocument :=
  { doc := doc, modifiedPaths := ["name", "description", "tags", "location", "photo", "author"] }

/-- Saving a new document: the hook runs, then the document joins the collection. -/
def saveNew (slug : String → String) (persisted : List Store) (doc : Store) : List Store :=
  persisted ++ [(preSave slug persisted (newDocument doc)).doc.doc]

/-! ### Sample collections -/

/-- Four persisted stores around the slug `coffee-shop`: the first three are
selected by its pattern, the fourth is not. -/
def coffeeShops : List Store :=
  [sampleStore 1 "Coffee Shop" (some "coffee-shop"),
   sampleStore 2 "Coffee Shop" (some "COFFEE-SHOP-7"),
   sampleStore 3 "Coffee Shop !" (some "coffee-shop-"),
   sampleStore 4 "Coffee Shops" (some "coffee-shops")]

/-- One persisted store whose slug is `shop-`, the slug that `slugs` gives the
name `shop !`. -/
def shopHyphen : List Store := [sampleStore 1 "shop !" (some "shop-")]

/-- One persisted store with slug `shop`. -/
def shopOnly : List Store := [sampleStore 1 "shop" (some "shop")]

/-- The results of two earlier saves of `Coffee Shop`, and an unrelated store. -/
def twoCoffeeShops : List Store :=
  [sampleStore 1 "Coffee Shop" (some "coffee-shop"),
   sampleStore 2 "Coffee Shop" (some "coffee-shop-1"),
   sampleStore 3 "Tea Room" (some "tea-room")]

/-- An existing store whose description, not its name, was edited. -/
def editedDescription : StoreDocument :=
  { doc := sampleStore 2 "shop" (some "shop"), modifiedPaths := ["description"] }

/-! ## Reviews and the aggregation pipelines -/

/-- Modelled from the spec: the Review model, which is not among the sources. A
review has a `store` reference and a numeric `rating`; a rating is the rational
number its stored value denotes. -/
structure Review where
  _id : Nat
  store : Nat
  rating : ℚ
  deriving DecidableEq

/-- A document of the `tags` unwinding: the store and one of its tags. -/
structure UnwoundStore where
  store : Store
  tags : String
  deriving DecidableEq

/-- The stage `$unwind: '$tags'`: one document per element of a store's tag
list, in order; a store with no tag yields none. -/
def unwind (stores : List Store) : List UnwoundStore :=
  stores.flatMap fun st => st.tags.map fun t => { store := st, tags := t }

/-- An output document of the tag grouping. -/
structure TagCount where
  _id : String
  count : Nat
  deriving DecidableEq, Repr

/-- One document entering the grouping: its group's sum grows by 1, a group
being opened when the key is new. -/
def groupStep (groups : List TagCount) (tag : String) : List TagCount :=
  match groups with
  | [] => [{ _id := tag, count := 1 }]
  | g :: gs =>
    if g._id = tag then { _id := g._id, count := g.count + 1 } :: gs
    else g :: groupStep gs tag

/-- The stage `$group` with `_id: '$tags'` and `count` the sum of 1 over the group. -/
def group (docs : List UnwoundStore) : List TagCount :=
  docs.foldl (fun groups d => groupStep groups d.tags) []

/-- The stage `$sort` on `count`, descending. Documents with equal counts keep
their incoming order. -/
def sortByCount (docs : List TagCount) : List TagCount :=
  docs.insertionSort fun a b => b.count ≤ a.count

/-- The static `getTagsList`. -/
def getTagsList (stores : List Store) : List TagCount :=
  sortByCount (group (unwind stores))

/-- A store with the reviews joined to it under `reviews`. -/
structure StoreWithReviews where
  store : Store
  reviews : List Review
  deriving DecidableEq

/-- The stage `$lookup` from `reviews`, local field `_id`, foreign field `store`. -/
def lookup (reviews : List Review) (stores : List Store) : List StoreWithReviews :=
  stores.map fun st => { store := st, reviews := reviews.filter fun r => r.store = st._id }

/-- The stage `$match` on `reviews.1` existing: the joined array has an element
at index 1. -/
def matchSecondReview (docs : List StoreWithReviews) : List StoreWithReviews :=
  docs.filter fun d => (d.reviews.get? 1).isSome

/-- The accumulator `$avg`: the mean of the values, null when there is none.
The result is a double: the total is held as a double and divided by the count
in double arithmetic, `fl` being the rounding of a real number to a double. -/
def avg (fl : ℚ → ℚ) (values : List ℚ) : Option ℚ :=
  if values.isEmpty then none else some (fl (fl values.sum / values.length))

/-- An output document of `getTopStores`. -/
structure TopStore where
  _id : Nat
  photo : Option String
  name : String
  reviews : List Review
  slug : Option String
  averageRating : Option ℚ
  deriving DecidableEq

/-- The stage `$project` of `getTopStores`. -/
def project (fl : ℚ → ℚ) (d : StoreWithReviews) : TopStore :=
  { _id := d.store._id
    photo := d.store.photo
    name := d.store.name
    reviews := d.reviews
    slug := d.store.slug
    averageRating := avg fl (d.reviews.map fun r => r.rating) }

/-- The order `$sort` compares `averageRating` in: null is below every number. -/
def ratingLE : Option ℚ → Option ℚ → Bool
  | none, _ => true
  | some _, none => false
  | some a, some b => decide (a ≤ b)

/-- The stage `$sort` on `averageRating`, descending. Documents with equal
averages keep their incoming order. -/
def sortByAverageRating (docs : List TopStore) : List TopStore :=
  docs.insertionSort fun a b => ratingLE b.averageRating a.averageRating = true

/-- The stage `$limit`. -/
def limit (n : Nat) (docs : List TopStore) : List TopStore := docs.take n

/-- The static `getTopStores`. `fl` is the rounding of double arithmetic. -/
def getTopStores (fl : ℚ → ℚ) (stores : List Store) (reviews : List Review) :
    List TopStore :=
  limit 10
    (sortByAverageRating ((matchSecondReview (lookup reviews stores)).map (project fl)))

/-- The reviews joined to a store: those whose `store` is the store's `_id`. -/
def joinedReviews (reviews : List Review) (st : Store) : List Review :=
  reviews.filter fun r => r.store = st._id

/-- The arithmetic mean of the ratings of a list of reviews. -/
def meanRating (rs : List Review) : ℚ := (rs.map fun r => r.rating).sum / rs.length

/-- The mean of the ratings as double arithmetic yields it: the total rounded,
divided by the count, rounded. -/
def roundedMeanRating (fl : ℚ → ℚ) (rs : List Review) : ℚ :=
  fl (fl (rs.map fun r => r.rating).sum / rs.length)

/-- Rounding to the nearest integer, ties to even. -/
def roundHalfEven (m : ℚ) : ℤ :=
  if m - ⌊m⌋ < 1 / 2 then ⌊m⌋
  else if 1 / 2 < m - ⌊m⌋ then ⌊m⌋ + 1
  else if ⌊m⌋ % 2 = 0 then ⌊m⌋ else ⌊m⌋ + 1

/-- The double nearest to a rational (IEEE 754 binary64, ties to even), for
magnitudes in the normal range: a 53-bit significand at the exponent of the
rational. It instantiates `fl` at concrete inputs; the theorems hold for any
rounding. -/
def binary64 (q : ℚ) : ℚ :=
  (roundHalfEven (q / 2 ^ (Int.log 2 |q| - 52)) : ℚ) * 2 ^ (Int.log 2 |q| - 52)

/-- A store with the given id, name and tags, the other paths at rest. -/
def taggedStore (id : Nat) (name : String) (tags : List String) : Store :=
  { sampleStore id name none with tags := tags }

/-- Two stores and three reviews: the first store is rated 4 and 5, the second
has a single review. -/
def ratedStores : List Store := [sampleStore 1 "Cafe" (some "cafe"), sampleStore 2 "Bar" (some "bar")]

/-- The reviews of `ratedStores`. -/
def ratedReviews : List Review :=
  [{ _id := 1, store := 1, rating := 4 }, { _id := 2, store := 1, rating := 5 },
   { _id := 3, store := 2, rating := 5 }]

/-- Three reviews of the first of `ratedStores`, rated 1, 1 and 2. -/
def thirdsReviews : List Review :=
  [{ _id := 1, store := 1, rating := 1 }, { _id := 2, store := 1, rating := 1 },
   { _id := 3, store := 1, rating := 2 }]

/-- The entry of the first of `ratedStores` in the ranking. -/
def cafeEntry : TopStore :=
  { _id := 1, photo := none, name := "Cafe",
    reviews := [{ _id := 1, store := 1, rating := 4 }, { _id := 2, store := 1, rating := 5 }],
    slug := some "cafe", averageRating := some (9 / 2) }

/-! ## The User model and the user controller -/

/-- A user document (`userSchema`, with the `hash` and `salt` the passport
plug-in adds). -/
structure User where
  _id : Nat
  email : Option String
  name : Option String
  photo : Option String
  resetPasswordToken : Option String
  resetPasswordExpires : Option Nat
  hearts : List Nat
  hash : Option String
  salt : Option String
  deriving DecidableEq

/-- The fields of `req.body` the controller reads; a field that is not there
is `none`. -/
structure Body where
  name : Option String
  email : Option String
  photo : Option String
  deriving DecidableEq

/-- An uploaded file as multer's memory storage holds it. -/
structure UploadedFile where
  mimetype : String
  buffer : List Nat
  deriving DecidableEq

/-- The request as the controller sees it. -/
structure Request where
  body : Body
  file : Option UploadedFile
  user : User
  deriving DecidableEq

/-- Truthiness of a field that is undefined or a string. -/
def truthy : Option String → Bool
  | none => false
  | some s => s != ""

/-- The object `updates` that `updateAccount` builds, as its key-value pairs. -/
def updates (req : Request) : List (String × Option String) :=
  let updates := [("name", req.body.name), ("email", req.body.email)]
  if truthy req.body.photo then updates ++ [("photo", req.body.photo)] else updates

/-- What the User schema contributes to an update: the validators that
`runValidators` runs on the update, and the casting of a value to its path. -/
structure UserSchema where
  runValidators : List (String × Option String) → Bool
  cast : String → Option String → Option String

/-- Setting one path of a user document. -/
def setPath (schema : UserSchema) (u : User) (path : String) (value : Option String) : User :=
  if path = "name" then { u with name := schema.cast path value }
  else if path = "email" then { u with email := schema.cast path value }
  else if path = "photo" then { u with photo := schema.cast path value }
  else u

/-- The update operator `$set`. -/
def applySet (schema : UserSchema) (u : User) (set : List (String × Option String)) : User :=
  set.foldl (fun u kv => setPath schema u kv.1 kv.2) u

/-- Replacing the first document a filter selects. -/
def updateFirst (p : User → Bool) (f : User → User) : List User → List User
  | [] => []
  | u :: us => if p u then f u :: us else u :: updateFirst p f us

/-- Mongoose's `findOneAndUpdate` by `_id` with `$set` and the options
`new: true, runValidators: true, context: 'query'` (no `upsert`): the update
validators run first; without a matching document the result is null and
nothing is written; otherwise the first match is updated and returned. The
result pairs the collection afterwards with the error or the document. -/
def findOneAndUpdate (schema : UserSchema) (users : List User) (id : Nat)
    (set : List (String × Option String)) : List User × Except String (Option User) :=
  if !schema.runValidators set then (users, .error "ValidationError")
  else
    match users.find? fun u => u._id == id with
    | none => (users, .ok none)
    | some u =>
      (updateFirst (fun u => u._id == id) (fun u => applySet schema u set) users,
        .ok (some (applySet schema u set)))

/-- What a handler sends back. -/
structure Response where
  flashes : List (String × String)
  redirect : Option String
  deriving DecidableEq

/-- The handler `updateAccount`: the user collection afterwards, and the error
the handler rejects with or its response. -/
def updateAccount (schema : UserSchema) (users : List User) (req : Request) :
    List User × Except String Response :=
  match findOneAndUpdate schema users req.user._id (updates req) with
  | (users', .error e) => (users', .error e)
  | (users', .ok _user) =>
    (users', .ok { flashes := [("success", "Successfully updated your account.")],
                   redirect := some "back" })

/-- The fields of a user other than name, email and photo. -/
def User.others (u : User) :
    Nat × Option String × Option Nat × List Nat × Option String × Option String :=
  (u._id, u.resetPasswordToken, u.resetPasswordExpires, u.hearts, u.hash, u.salt)

/-- The error object of the upload filter. -/
structure FilterError where
  message : String
  deriving DecidableEq

/-- The `fileFilter` of `multerOptions`: the arguments it calls `next` with. -/
def fileFilter (file : UploadedFile) : Option FilterError × Bool :=
  let isPhoto := "image/".toList.isPrefixOf file.mimetype.toList
  if isPhoto then (none, true)
  else (some { message := "That filetype isn't allowed !" }, false)

/-- How photo intake can fail. -/
inductive IntakeError where
  | filter : FilterError → IntakeError
  | decode : IntakeError
  deriving DecidableEq

/-- The state photo intake works on: the request, the files written under
`./public/uploads/`, and the error passed on, if any. -/
structure Intake where
  req : Request
  uploads : List String
  error : Option IntakeError
  deriving DecidableEq

/-- The middleware `upload`, multer's `single('photo')` with `multerOptions`:
the incoming file goes through `fileFilter`; an error is passed on, an accepted
file becomes `req.file`, a file refused without error is skipped. -/
def upload (incoming : Option UploadedFile) (st : Intake) : Intake :=
  match incoming with
  | none => st
  | some file =>
    match fileFilter file with
    | (some err, _) => { st with error := some (.filter err) }
    | (none, true) => { st with req := { st.req with file := some file } }
    | (none, false) => st

/-- The pieces of a text between the occurrences of a separator (`split`). -/
def split (sep : Char) : List Char → List (List Char)
  | [] => [[]]
  | c :: cs =>
    if c = sep then [] :: split sep cs
    else
      match split sep cs with
      | [] => [[c]]
      | piece :: pieces => (c :: piece) :: pieces

/-- The middleware `resize`. `uuid` is the identifier `uuid.v4()` returns,
`jimpRead` whether `jimp.read` decodes the buffer. -/
def resize (jimpRead : List Nat → Bool) (uuid : String) (st : Intake) : Intake :=
  match st.req.file with
  | none => st
  | some file =>
    let extension :=
      (((split '/' file.mimetype.toList).get? 1).map String.mk).getD "undefined"
    let photo := uuid ++ "." ++ extension
    let req := { st.req with body := { st.req.body with photo := some photo } }
    if jimpRead file.buffer then
      { st with req := req, uploads := st.uploads ++ ["./public/uploads/" ++ photo] }
    else
      { st with req := req, error := some .decode }

/-- Modelled from the spec: the route's chaining of `upload` and `resize` (the
routes file is not among the sources). The media-type check happens before any
processing; a middleware that passed an error on ends the chain. -/
def photoIntake (jimpRead : List Nat → Bool) (uuid : String)
    (incoming : Option UploadedFile) (st : Intake) : Intake :=
  let uploaded := upload incoming st
  if uploaded.error.isSome then uploaded else resize jimpRead uuid uploaded

/-- A user with the given id and photo. -/
def sampleUser (id : Nat) (photo : Option String) : User :=
  { _id := id, email := some "ann@example.com", name := some "Ann", photo := photo,
    resetPasswordToken := none, resetPasswordExpires := none, hearts := [3],
    hash := some "h", salt := some "s" }

/-- An account update by the user `id` that sends a name and an email and no photo. -/
def sampleRequest (id : Nat) : Request :=
  { body := { name := some "Ann B", email := some "ann.b@example.com", photo := none },
    file := none, user := sampleUser id none }

/-- A schema whose validators accept a name and an email that are non-empty
strings, and whose casting keeps the value. -/
def sampleSchema : UserSchema :=
  { runValidators := fun set =>
      set.all fun kv => kv.1 == "photo" || truthy kv.2
    cast := fun _ v => v }

/-- A state of photo intake with nothing uploaded yet. -/
def sampleIntake : Intake :=
  { req := sampleRequest 1, uploads := [], error := none }
/-! ## The slug pattern, characterised -/

theorem ciEq_iff (xs ys : List Char) :
    ciEq xs ys = true ↔ xs.map canonicalize = ys.map canonicalize := by
  simp [ciEq]

theorem ciEq_nil_right (xs : List Char) : ciEq xs [] = true ↔ xs = [] := by
  simp [ciEq]

theorem ciEq_cons_right (xs : List Char) (c : Char) (cs : List Char) :
    ciEq xs (c :: cs) = true ↔
      ∃ x xs', xs = x :: xs' ∧ canonicalize x = canonicalize c ∧ ciEq xs' cs = true := by
  cases xs with
  | nil => simp [ciEq]
  | cons x xs' =>
    simp only [ciEq_iff, List.map_cons, List.cons.injEq]
    constructor
    · rintro ⟨h1, h2⟩; exact ⟨x, xs', ⟨rfl, rfl⟩, h1, h2⟩
    · rintro ⟨_, _, ⟨rfl, rfl⟩, h1, h2⟩; exact ⟨h1, h2⟩

theorem step_seq (input : List Char) (p q : Pattern) (rest : List Char) :
    (Pattern.seq p q).step input rest = (p.step input rest).flatMap (q.step input) := rfl

theorem step_group (input : List Char) (p : Pattern) (rest : List Char) :
    (Pattern.group p).step input rest = p.step input rest := rfl

theorem step_opt (input : List Char) (p : Pattern) (rest : List Char) :
    (Pattern.opt p).step input rest = p.step input rest ++ [rest] := rfl

theorem step_star (input : List Char) (p : Pattern) (rest : List Char) :
    (Pattern.star p).step input rest = iterate (p.step input) rest.length rest := rfl

theorem mem_step_char (input : List Char) (c : Char) (rest r : List Char) :
    r ∈ (Pattern.char c).step input rest ↔
      ∃ x, rest = x :: r ∧ canonicalize x = canonicalize c := by
  cases rest with
  | nil => simp [Pattern.step]
  | cons x xs =>
    by_cases h : canonicalize x = canonicalize c
    · simp only [Pattern.step, if_pos h, List.mem_singleton, List.cons.injEq]
      constructor
      · rintro rfl; exact ⟨x, ⟨rfl, rfl⟩, h⟩
      · rintro ⟨_, ⟨rfl, rfl⟩, -⟩; rfl
    · simp only [Pattern.step, if_neg h, List.not_mem_nil, List.cons.injEq, false_iff]
      rintro ⟨_, ⟨rfl, rfl⟩, h'⟩; exact h h'

theorem mem_step_digit (input : List Char) (rest r : List Char) :
    r ∈ Pattern.digit.step input rest ↔ ∃ x, rest = x :: r ∧ x.isDigit = true := by
  cases rest with
  | nil => simp [Pattern.step]
  | cons x xs =>
    by_cases h : x.isDigit = true
    · simp only [Pattern.step, if_pos h, List.mem_singleton, List.cons.injEq]
      constructor
      · rintro rfl; exact ⟨x, ⟨rfl, rfl⟩, h⟩
      · rintro ⟨_, ⟨rfl, rfl⟩, -⟩; rfl
    · simp only [Pattern.step, if_neg h, List.not_mem_nil, List.cons.injEq, false_iff]
      rintro ⟨_, ⟨rfl, rfl⟩, h'⟩; exact h h'

theorem mem_step_eol (input rest r : List Char) :
    r ∈ Pattern.eol.step input rest ↔ rest = [] ∧ r = [] := by
  cases rest with
  | nil => simp [Pattern.step]
  | cons x xs => simp [Pattern.step]

theorem mem_step_literal (input : List Char) (s : List Char) :
    ∀ rest r, r ∈ (literal s).step input rest ↔ ∃ pre, rest = pre ++ r ∧ ciEq pre s = true := by
  induction s with
  | nil =>
    intro rest r
    simp only [literal, Pattern.step, List.mem_singleton, ciEq_nil_right]
    constructor
    · rintro rfl; exact ⟨[], rfl, rfl⟩
    · rintro ⟨_, rfl, rfl⟩; rfl
  | cons c cs ih =>
    intro rest r
    simp only [literal, step_seq, List.mem_flatMap, mem_step_char, ih, ciEq_cons_right]
    constructor
    · rintro ⟨mid, ⟨x, rfl, hx⟩, pre, rfl, hpre⟩
      exact ⟨x :: pre, rfl, x, pre, rfl, hx, hpre⟩
    · rintro ⟨_, rfl, x, pre, rfl, hx, hpre⟩
      exact ⟨pre ++ r, ⟨x, rfl, hx⟩, pre, rfl, hpre⟩

theorem mem_iterate_digit (input : List Char) :
    ∀ (fuel : Nat) (rest r : List Char), r ∈ iterate (Pattern.digit.step input) fuel rest ↔
      ∃ ds, rest = ds ++ r ∧ ds.all Char.isDigit = true ∧ ds.length ≤ fuel := by
  intro fuel
  induction fuel with
  | zero =>
    intro rest r
    simp only [iterate, List.mem_singleton, Nat.le_zero, List.length_eq_zero]
    constructor
    · rintro rfl; exact ⟨[], rfl, rfl, rfl⟩
    · rintro ⟨ds, rfl, -, rfl⟩; rfl
  | succ n ih =>
    intro rest r
    simp only [iterate, List.mem_append, List.mem_flatMap, List.mem_filter, mem_step_digit, ih,
      List.mem_singleton, decide_eq_true_eq]
    constructor
    · rintro (⟨mid, ⟨⟨x, rfl, hx⟩, -⟩, ds, rfl, hds, hlen⟩ | rfl)
      · exact ⟨x :: ds, rfl, by simp [hx, hds], by simpa using hlen⟩
      · exact ⟨[], rfl, rfl, Nat.zero_le _⟩
    · rintro ⟨ds, rfl, hds, hlen⟩
      cases ds with
      | nil => right; rfl
      | cons x ds =>
        left
        simp only [List.all_cons, Bool.and_eq_true] at hds
        exact ⟨ds ++ r, ⟨⟨x, rfl, hds.1⟩, by simp⟩, ds, rfl, hds.2, by simpa using hlen⟩

theorem mem_step_star_digit (input rest r : List Char) :
    r ∈ (Pattern.star .digit).step input rest ↔
      ∃ ds, rest = ds ++ r ∧ ds.all Char.isDigit = true := by
  rw [step_star]
  simp only [mem_iterate_digit]
  constructor
  · rintro ⟨ds, h, hds, -⟩; exact ⟨ds, h, hds⟩
  · rintro ⟨ds, rfl, hds⟩; exact ⟨ds, rfl, hds, by simp⟩

theorem canonicalize_eq_hyphen (c : Char) :
    canonicalize c = canonicalize '-' ↔ c = '-' := by
  have h0 : canonicalize '-' = '-' := by decide
  rw [h0]
  constructor
  · intro h
    unfold canonicalize Char.toUpper at h
    simp only at h
    split at h
    · rename_i hc
      obtain ⟨h1, h2⟩ := hc
      exfalso
      generalize c.toNat = n at h h1 h2
      interval_cases n <;> revert h <;> decide
    · exact h
  · rintro rfl; exact h0

/-- The optional suffix of the slug pattern, `((-[0-9]*$)?)`. -/
theorem mem_step_suffix (input rest r : List Char) :
    r ∈ (Pattern.group (.opt (.group (.seq (.char '-') (.seq (.star .digit) .eol))))).step
        input rest ↔
      r = rest ∨ (r = [] ∧ ∃ ds, rest = '-' :: ds ∧ ds.all Char.isDigit = true) := by
  simp only [step_group, step_opt, step_seq, List.mem_append, List.mem_flatMap, mem_step_char,
    mem_step_star_digit, mem_step_eol, List.mem_singleton, canonicalize_eq_hyphen]
  constructor
  · rintro (⟨mid, ⟨x, rfl, rfl⟩, e, ⟨ds, rfl, hds⟩, rfl, rfl⟩ | rfl)
    · right; exact ⟨rfl, ds, by simp, hds⟩
    · left; rfl
  · rintro (rfl | ⟨rfl, ds, rfl, hds⟩)
    · right; rfl
    · left; exact ⟨ds, ⟨'-', rfl, rfl⟩, [], ⟨ds, by simp, hds⟩, rfl, rfl⟩

theorem ciEq_length {xs ys : List Char} (h : ciEq xs ys = true) : xs.length = ys.length := by
  rw [ciEq_iff] at h
  simpa using congrArg List.length h

theorem mem_step_bol (input rest r : List Char) :
    r ∈ Pattern.bol.step input rest ↔ r = rest ∧ rest.length = input.length := by
  by_cases h : rest.length = input.length
  · simp [Pattern.step, h]
  · simp [Pattern.step, h]

theorem mem_step_slugRegEx (s : String) (x rest r : List Char) :
    r ∈ (slugRegEx s).step x rest ↔
      rest.length = x.length ∧ r = [] ∧
        ∃ pre mid, rest = pre ++ mid ∧ ciEq pre s.toList = true ∧
          (mid = [] ∨ ∃ ds, mid = '-' :: ds ∧ ds.all Char.isDigit = true) := by
  unfold slugRegEx
  simp only [step_seq, List.mem_flatMap, mem_step_bol, mem_step_suffix, mem_step_eol]
  simp only [step_group, mem_step_literal]
  constructor
  · rintro ⟨_, ⟨rfl, hlen⟩, mid, ⟨pre, rfl, hpre⟩, e, he, rfl, rfl⟩
    refine ⟨hlen, rfl, pre, mid, rfl, hpre, ?_⟩
    rcases he with h | ⟨-, ds, rfl, hds⟩
    · left; exact h.symm
    · right; exact ⟨ds, rfl, hds⟩
  · rintro ⟨hlen, rfl, pre, mid, rfl, hpre, hmid⟩
    refine ⟨pre ++ mid, ⟨rfl, hlen⟩, mid, ⟨pre, rfl, hpre⟩, [], ?_, rfl, rfl⟩
    rcases hmid with rfl | ⟨ds, rfl, hds⟩
    · left; rfl
    · right; exact ⟨rfl, ds, rfl, hds⟩

theorem slugRegEx_test_iff (s : String) (x : List Char) :
    (slugRegEx s).test x = true ↔
      ∃ pre mid, x = pre ++ mid ∧ ciEq pre s.toList = true ∧
        (mid = [] ∨ ∃ ds, mid = '-' :: ds ∧ ds.all Char.isDigit = true) := by
  simp only [Pattern.test, List.any_eq_true, List.mem_tails, Bool.not_eq_true',
    List.isEmpty_eq_false]
  constructor
  · rintro ⟨rest, hsuf, hne⟩
    obtain ⟨r, hr⟩ := List.exists_mem_of_ne_nil _ hne
    rw [mem_step_slugRegEx] at hr
    obtain ⟨hlen, -, h⟩ := hr
    have : rest = x := hsuf.eq_of_length hlen
    subst this
    exact h
  · intro h
    refine ⟨x, List.suffix_refl x, ?_⟩
    have : ([] : List Char) ∈ (slugRegEx s).step x x := by
      rw [mem_step_slugRegEx]; exact ⟨rfl, rfl, h⟩
    exact List.ne_nil_of_mem this

theorem matchesSlug_iff (s x : List Char) :
    matchesSlug s x = true ↔
      ∃ pre mid, x = pre ++ mid ∧ ciEq pre s = true ∧
        (mid = [] ∨ ∃ ds, mid = '-' :: ds ∧ ds.all Char.isDigit = true) := by
  simp only [matchesSlug, Bool.or_eq_true, Bool.and_eq_true, beq_iff_eq]
  constructor
  · rintro (h | ⟨⟨h1, h2⟩, h3⟩)
    · exact ⟨x, [], by simp, h, Or.inl rfl⟩
    · refine ⟨x.take s.length, x.drop s.length, (List.take_append_drop _ _).symm, h1, Or.inr ?_⟩
      cases hd : x.drop s.length with
      | nil => rw [hd] at h2; simp at h2
      | cons c ds =>
        rw [hd] at h2 h3
        simp only [List.head?_cons, Option.some.injEq] at h2
        subst h2
        exact ⟨ds, rfl, h3⟩
  · rintro ⟨pre, mid, rfl, hpre, rfl | ⟨ds, rfl, hds⟩⟩
    · left; simpa using hpre
    · right
      have hlen := ciEq_length hpre
      rw [← hlen]
      simp [hpre, hds]

theorem slugRegEx_test (s : String) (x : List Char) :
    (slugRegEx s).test x = matchesSlug s.toList x := by
  rw [Bool.eq_iff_iff, slugRegEx_test_iff, matchesSlug_iff]

/-! ## Decimal rendering of the match count -/

theorem digitChar_isDigit (m : Nat) (h : m < 10) : (Nat.digitChar m).isDigit = true := by
  interval_cases m <;> decide

theorem digitChar_value (m : Nat) (h : m < 10) : (Nat.digitChar m).toNat - 48 = m := by
  interval_cases m <;> decide

theorem toDigitsCore_all_isDigit :
    ∀ (fuel n : Nat) (ds : List Char), ds.all Char.isDigit = true →
      (Nat.toDigitsCore 10 fuel n ds).all Char.isDigit = true := by
  intro fuel
  induction fuel with
  | zero => intro n ds h; simpa [Nat.toDigitsCore] using h
  | succ f ih =>
    intro n ds h
    have hd : (Nat.digitChar (n % 10)).isDigit = true :=
      digitChar_isDigit _ (Nat.mod_lt _ (by decide))
    have hcons : (Nat.digitChar (n % 10) :: ds).all Char.isDigit = true := by
      simp only [List.all_cons, Bool.and_eq_true]; exact ⟨hd, h⟩
    simp only [Nat.toDigitsCore]
    split
    · exact hcons
    · exact ih _ _ hcons

/-- The number a digit sequence reads as, starting from `acc`. -/
theorem toDigitsCore_value :
    ∀ (fuel n : Nat) (ds : List Char), n < fuel →
      (Nat.toDigitsCore 10 fuel n ds).foldl (fun acc c => acc * 10 + (c.toNat - 48)) 0 =
        ds.foldl (fun acc c => acc * 10 + (c.toNat - 48)) n := by
  intro fuel
  induction fuel with
  | zero => intro n ds h; omega
  | succ f ih =>
    intro n ds h
    have hv := digitChar_value (n % 10) (Nat.mod_lt _ (by decide))
    simp only [Nat.toDigitsCore]
    split
    · rename_i h0
      simp only [List.foldl_cons, hv]
      congr 1
      omega
    · rename_i h0
      rw [ih (n / 10) _ (by omega)]
      simp only [List.foldl_cons, hv]
      congr 1
      omega

theorem toString_toList (k : Nat) : (toString k).toList = Nat.toDigits 10 k := rfl

theorem toString_all_isDigit (k : Nat) : (toString k).toList.all Char.isDigit = true := by
  rw [toString_toList]
  exact toDigitsCore_all_isDigit _ _ _ rfl

theorem toString_injective {j k : Nat} (h : toString j = toString k) : j = k := by
  have h' : Nat.toDigits 10 j = Nat.toDigits 10 k := by
    rw [← toString_toList, ← toString_toList, h]
  have hj := toDigitsCore_value (j + 1) j [] (Nat.lt_succ_self j)
  have hk := toDigitsCore_value (k + 1) k [] (Nat.lt_succ_self k)
  simp only [List.foldl_nil] at hj hk
  unfold Nat.toDigits at h'
  rw [← hj, ← hk, h']

/-! ## The pre-save hook -/

theorem find_slugRegEx_length (s : String) (persisted : List Store) :
    (find persisted (slugRegEx s)).length = matchCount s persisted := by
  unfold find matchCount
  simp only [slugRegEx_test]

theorem matchesSlug_self (s : List Char) : matchesSlug s s = true := by
  simp [matchesSlug, ciEq]

theorem suffixed_toList (s : String) (k : Nat) :
    (s ++ "-" ++ toString k).toList = s.toList ++ '-' :: (toString k).toList := by
  simp [String.toList]

theorem matchesSlug_suffixed (s : String) (k : Nat) :
    matchesSlug s.toList (s ++ "-" ++ toString k).toList = true := by
  rw [matchesSlug_iff, suffixed_toList]
  exact ⟨s.toList, _, rfl, by simp [ciEq], Or.inr ⟨_, rfl, toString_all_isDigit k⟩⟩

theorem suffixed_ne_self (s : String) (k : Nat) : s ++ "-" ++ toString k ≠ s := by
  intro h
  have := congrArg String.toList h
  rw [suffixed_toList] at this
  have := congrArg List.length this
  simp at this

theorem suffixed_injective (s : String) {j k : Nat}
    (h : s ++ "-" ++ toString j = s ++ "-" ++ toString k) : j = k := by
  have h' := congrArg String.toList h
  rw [suffixed_toList, suffixed_toList] at h'
  have h'' := List.append_cancel_left h'
  simp only [List.cons.injEq, true_and] at h''
  exact toString_injective (String.ext h'')

theorem preSave_modified (slug : String → String) (persisted : List Store)
    (this : StoreDocument) (hmod : this.isModified "name" = true) :
    (preSave slug persisted this).doc.doc.slug =
      some (if matchCount (slug this.doc.name) persisted = 0 then slug this.doc.name
        else slug this.doc.name ++ "-" ++ toString (matchCount (slug this.doc.name) persisted)) := by
  unfold preSave
  simp only [hmod, Bool.not_true, Bool.false_eq_true, if_false, find_slugRegEx_length]
  by_cases hk : matchCount (slug this.doc.name) persisted = 0
  · simp [hk]
  · simp [hk]

theorem matchCount_append (s : String) (xs ys : List Store) :
    matchCount s (xs ++ ys) = matchCount s xs + matchCount s ys := by
  simp [matchCount]

theorem matchCount_pos_of_mem (s : String) (persisted : List Store) (st : Store) (sl : String)
    (hst : st ∈ persisted) (hsl : st.slug = some sl)
    (hm : matchesSlug s.toList sl.toList = true) : 0 < matchCount s persisted := by
  unfold matchCount
  apply List.length_pos_of_mem (a := st)
  rw [List.mem_filter]
  refine ⟨hst, ?_⟩
  simp only [hsl, hm]

/-! ### The claims about the slug -/

/-- C1 (as amended). When the name was modified, the hook sets the slug to the
slugified name `s` if no persisted store is selected, and to `s-k` otherwise,
`k` being the number of persisted stores whose slug is, letter case ignored,
`s` or `s` followed by a hyphen and zero or more decimal digits. -/
theorem preSave_slug_of_modified_name (slug : String → String) (persisted : List Store)
    (this : StoreDocument) (hmod : this.isModified "name" = true)
    (_hlit : ∀ c ∈ (slug this.doc.name).toList, isPatternLiteral c = true) :
    (preSave slug persisted this).doc.doc.slug =
      some (if matchCount (slug this.doc.name) persisted = 0 then slug this.doc.name
        else slug this.doc.name ++ "-" ++ toString (matchCount (slug this.doc.name) persisted)) := by
  have hcount : (find persisted (slugRegEx (slug this.doc.name))).length =
      matchCount (slug this.doc.name) persisted := by
    unfold find matchCount
    simp only [slugRegEx_test]
  unfold preSave
  simp only [hmod, Bool.not_true, Bool.false_eq_true, if_false, hcount]
  by_cases hk : matchCount (slug this.doc.name) persisted = 0
  · simp [hk]
  · simp [hk]

/-- Witness for C1: a fourth `Coffee Shop` among `coffeeShops` gets the suffix 3. -/
theorem preSave_slug_of_modified_name_witness :
    (preSave slugs coffeeShops (newDocument (sampleStore 5 "Coffee Shop" none))).doc.doc.slug =
      some "coffee-shop-3" :=
  (preSave_slug_of_modified_name slugs coffeeShops
    (newDocument (sampleStore 5 "Coffee Shop" none)) (by decide) (by decide)).trans (by decide)

/-- C1 as stated fails: with a persisted slug `shop-` (a hyphen and no digit),
the stated count is 0 and the stated slug `shop`, while the hook assigns
`shop-1`. -/
theorem preSave_stated_count_fails :
    statedCount (slugs "shop") shopHyphen = 0 ∧
    (preSave slugs shopHyphen (newDocument (sampleStore 2 "shop" none))).doc.doc.slug =
      some "shop-1" ∧
    (preSave slugs shopHyphen (newDocument (sampleStore 2 "shop" none))).doc.doc.slug ≠
      some (if statedCount (slugs "shop") shopHyphen = 0 then slugs "shop"
        else slugs "shop" ++ "-" ++ toString (statedCount (slugs "shop") shopHyphen)) := by
  decide

/-- C2. When the name was not modified, the hook hands the document on as it
is, slug included, and issues no query, whatever the collection holds. -/
theorem preSave_unmodified_name (slug : String → String) (persisted : List Store)
    (this : StoreDocument) (hmod : this.isModified "name" = false) :
    preSave slug persisted this = { doc := this, queries := [] } := by
  unfold preSave
  simp [hmod]

/-- Witness for C2: editing the description of a store named `shop` while
another store carries the slug `shop` leaves the slug alone. -/
theorem preSave_unmodified_name_witness :
    editedDescription.isModified "name" = false ∧
    find (shopOnly ++ [editedDescription.doc]) (slugRegEx (slugs "shop")) ≠ [] ∧
    preSave slugs (shopOnly ++ [editedDescription.doc]) editedDescription =
      { doc := editedDescription, queries := [] } :=
  ⟨by decide, by decide,
    preSave_unmodified_name slugs (shopOnly ++ [editedDescription.doc]) editedDescription
      (by decide)⟩

theorem newDocument_isModified_name (doc : Store) :
    (newDocument doc).isModified "name" = true := by
  simp [newDocument, StoreDocument.isModified]

theorem matchCount_saveNew (slug : String → String) (persisted : List Store) (doc : Store) :
    matchCount (slug doc.name) (saveNew slug persisted doc) =
      matchCount (slug doc.name) persisted + 1 := by
  unfold saveNew
  rw [matchCount_append]
  congr 1
  have h := preSave_modified slug persisted (newDocument doc) (newDocument_isModified_name doc)
  have hn : (newDocument doc).doc.name = doc.name := rfl
  rw [hn] at h
  unfold matchCount
  simp only [List.filter_cons, List.filter_nil, h]
  by_cases hk : matchCount (slug doc.name) persisted = 0
  · simp only [hk, if_true, matchesSlug_self, List.length_singleton]
  · simp only [hk, if_false, matchesSlug_suffixed, if_true, List.length_singleton]

/-- C3 (as amended). Two new stores of the same name `N`, the first persisted
before the second is saved, get distinct slugs; the second is `slug N` suffixed
with a hyphen and the number of persisted stores selected at the second save,
one more than at the first; when nothing was selected at the first save (as
from an empty collection) the slugs are `slug N` and `slug N ++ "-1"`. -/
theorem saveNew_twice (slug : String → String) (persisted : List Store) (N : String)
    (first second : Store) (h1 : first.name = N) (h2 : second.name = N)
    (_hlit : ∀ c ∈ (slug N).toList, isPatternLiteral c = true) :
    (preSave slug persisted (newDocument first)).doc.doc.slug ≠
        (preSave slug (saveNew slug persisted first) (newDocument second)).doc.doc.slug ∧
      (preSave slug (saveNew slug persisted first) (newDocument second)).doc.doc.slug =
        some (slug N ++ "-" ++ toString (matchCount (slug N) (saveNew slug persisted first))) ∧
      matchCount (slug N) (saveNew slug persisted first) = matchCount (slug N) persisted + 1 ∧
      (matchCount (slug N) persisted = 0 →
        (preSave slug persisted (newDocument first)).doc.doc.slug = some (slug N) ∧
        (preSave slug (saveNew slug persisted first) (newDocument second)).doc.doc.slug =
          some (slug N ++ "-1")) := by
  subst h1
  have hcount := matchCount_saveNew slug persisted first
  have e1 := preSave_modified slug persisted (newDocument first)
    (newDocument_isModified_name first)
  have e2 := preSave_modified slug (saveNew slug persisted first) (newDocument second)
    (newDocument_isModified_name second)
  have hn1 : (newDocument first).doc.name = first.name := rfl
  have hn2 : (newDocument second).doc.name = first.name := h2
  rw [hn1] at e1
  rw [hn2, hcount] at e2
  simp only [Nat.succ_ne_zero, if_false] at e2
  rw [e1, e2, hcount]
  refine ⟨?_, rfl, rfl, ?_⟩
  · by_cases hk : matchCount (slug first.name) persisted = 0
    · simp only [hk, if_true, ne_eq, Option.some.injEq]
      exact fun h => suffixed_ne_self _ _ h.symm
    · simp only [hk, if_false, ne_eq, Option.some.injEq]
      intro h
      have := suffixed_injective _ h
      omega
  · intro hk
    simp only [hk, if_true, true_and]
    rw [String.append_assoc]
    rfl

/-- Witness for C3: from an empty collection, `Coffee Shop` twice. -/
theorem saveNew_twice_witness :
    (preSave slugs [] (newDocument (sampleStore 1 "Coffee Shop" none))).doc.doc.slug =
        some "coffee-shop" ∧
      (preSave slugs (saveNew slugs [] (sampleStore 1 "Coffee Shop" none))
        (newDocument (sampleStore 2 "Coffee Shop" none))).doc.doc.slug =
        some "coffee-shop-1" :=
  (saveNew_twice slugs [] "Coffee Shop" (sampleStore 1 "Coffee Shop" none)
    (sampleStore 2 "Coffee Shop" none) rfl rfl (by decide)).2.2.2 (by decide)

/-- C3 as stated fails when the first save already selects a store: from a
collection holding `shop`, the two saves give `shop-1` and `shop-2`, and
`shop-2` is not `shop-1` suffixed with the count 2. -/
theorem saveNew_twice_second_not_first_suffixed :
    (preSave slugs shopOnly (newDocument (sampleStore 2 "shop" none))).doc.doc.slug =
        some "shop-1" ∧
      (preSave slugs (saveNew slugs shopOnly (sampleStore 2 "shop" none))
        (newDocument (sampleStore 3 "shop" none))).doc.doc.slug = some "shop-2" ∧
      matchCount (slugs "shop") (saveNew slugs shopOnly (sampleStore 2 "shop" none)) = 2 ∧
      (preSave slugs (saveNew slugs shopOnly (sampleStore 2 "shop" none))
        (newDocument (sampleStore 3 "shop" none))).doc.doc.slug ≠
        Option.map
          (fun firstSlug => firstSlug ++ "-" ++
            toString (matchCount (slugs "shop")
              (saveNew slugs shopOnly (sampleStore 2 "shop" none))))
          (preSave slugs shopOnly (newDocument (sampleStore 2 "shop" none))).doc.doc.slug := by
  decide

/-- C4 (as amended). When the name was modified, the slug the hook assigns is
the slug of a persisted store exactly when the number `k` of persisted stores
the pattern selects is positive and a persisted store already carries `s-k`;
in every other case, as when nothing is selected, it differs from the slug of
every persisted store. -/
theorem preSave_slug_collides_iff (slug : String → String) (persisted : List Store)
    (this : StoreDocument) (hmod : this.isModified "name" = true)
    (_hlit : ∀ c ∈ (slug this.doc.name).toList, isPatternLiteral c = true) :
    (preSave slug persisted this).doc.doc.slug ∈ persisted.map (fun st => st.slug) ↔
      0 < matchCount (slug this.doc.name) persisted ∧
        some (slug this.doc.name ++ "-" ++
            toString (matchCount (slug this.doc.name) persisted)) ∈
          persisted.map (fun st => st.slug) := by
  rw [preSave_modified slug persisted this hmod]
  by_cases hk : matchCount (slug this.doc.name) persisted = 0
  · simp only [hk, if_true, Nat.lt_irrefl, false_and, iff_false]
    intro hmem
    obtain ⟨st, hst, heq⟩ := List.mem_map.1 hmem
    have := matchCount_pos_of_mem _ persisted st _ hst heq (matchesSlug_self _)
    omega
  · simp only [hk, if_false]
    exact ⟨fun h => ⟨Nat.pos_of_ne_zero hk, h⟩, fun h => h.2⟩

/-- Witness for C4: among `twoCoffeeShops` a third `Coffee Shop` gets a slug no
persisted store carries, and so does a new `shop` beside the persisted slug
`shop-`. -/
theorem preSave_slug_collides_iff_witness :
    (preSave slugs twoCoffeeShops
        (newDocument (sampleStore 4 "Coffee Shop" none))).doc.doc.slug ∉
        twoCoffeeShops.map (fun st => st.slug) ∧
      (preSave slugs shopHyphen (newDocument (sampleStore 2 "shop" none))).doc.doc.slug ∉
        shopHyphen.map (fun st => st.slug) :=
  ⟨fun h =>
      absurd ((preSave_slug_collides_iff slugs twoCoffeeShops
        (newDocument (sampleStore 4 "Coffee Shop" none)) (by decide) (by decide)).1 h).2
        (by decide),
    fun h =>
      absurd ((preSave_slug_collides_iff slugs shopHyphen
        (newDocument (sampleStore 2 "shop" none)) (by decide) (by decide)).1 h).2
        (by decide)⟩

/-- C4 as stated fails: after a store named `shop 1` was saved (slug `shop-1`),
a new store named `shop` is assigned `shop-1` as well. -/
theorem preSave_slug_not_unique :
    (saveNew slugs [] (sampleStore 1 "shop 1" none)).map (fun st => st.slug) =
        [some "shop-1"] ∧
      (preSave slugs (saveNew slugs [] (sampleStore 1 "shop 1" none))
        (newDocument (sampleStore 2 "shop" none))).doc.doc.slug ∈
        (saveNew slugs [] (sampleStore 1 "shop 1" none)).map (fun st => st.slug) := by
  decide

/-! ## Tag frequency -/

theorem groupStep_ids (groups : List TagCount) (tag : String) :
    (groupStep groups tag).map (fun g => g._id) =
      if tag ∈ groups.map (fun g => g._id) then groups.map (fun g => g._id)
      else groups.map (fun g => g._id) ++ [tag] := by
  induction groups with
  | nil => simp [groupStep]
  | cons g gs ih =>
    by_cases h : g._id = tag
    · simp [groupStep, h]
    · have h' : ¬ tag = g._id := fun e => h e.symm
      simp only [groupStep, if_neg h, List.map_cons, ih, List.mem_cons, h', false_or]
      split <;> simp

theorem groupStep_sum (groups : List TagCount) (tag t : String) :
    (((groupStep groups tag).filter fun g => g._id = t).map fun g => g.count).sum =
      ((groups.filter fun g => g._id = t).map fun g => g.count).sum +
        if t = tag then 1 else 0 := by
  induction groups with
  | nil =>
    by_cases h : t = tag
    · simp [groupStep, h]
    · have h' : ¬ tag = t := fun e => h e.symm
      simp [groupStep, h, h']
  | cons g gs ih =>
    by_cases hg : g._id = tag
    · by_cases h : t = tag
      · subst h
        simp [groupStep, hg]
        omega
      · have h' : ¬ tag = t := fun e => h e.symm
        simp [groupStep, hg, h, h']
    · by_cases hgt : g._id = t
      · rw [groupStep, if_neg hg]
        simp only [List.filter_cons, hgt, decide_True, if_true,
          List.map_cons, List.sum_cons, ih]
        omega
      · rw [groupStep, if_neg hg]
        simp only [List.filter_cons, hgt, decide_False,
          Bool.false_eq_true, if_false, ih]

theorem foldl_groupStep_ids_mem (tags : List String) :
    ∀ (groups : List TagCount) (t : String),
      t ∈ (tags.foldl groupStep groups).map (fun g => g._id) ↔
        t ∈ groups.map (fun g => g._id) ∨ t ∈ tags := by
  induction tags with
  | nil => intro groups t; simp
  | cons tag tags ih =>
    intro groups t
    rw [List.foldl_cons, ih, groupStep_ids]
    by_cases h : tag ∈ groups.map (fun g => g._id)
    · rw [if_pos h, List.mem_cons]
      constructor
      · rintro (h1 | h1)
        · exact Or.inl h1
        · exact Or.inr (Or.inr h1)
      · rintro (h1 | rfl | h1)
        · exact Or.inl h1
        · exact Or.inl h
        · exact Or.inr h1
    · rw [if_neg h, List.mem_append, List.mem_singleton, List.mem_cons]
      tauto

theorem foldl_groupStep_ids_nodup (tags : List String) :
    ∀ (groups : List TagCount), (groups.map (fun g => g._id)).Nodup →
      ((tags.foldl groupStep groups).map (fun g => g._id)).Nodup := by
  induction tags with
  | nil => intro groups h; simpa using h
  | cons tag tags ih =>
    intro groups h
    rw [List.foldl_cons]
    apply ih
    rw [groupStep_ids]
    by_cases hm : tag ∈ groups.map (fun g => g._id)
    · rw [if_pos hm]; exact h
    · rw [if_neg hm]
      exact List.Nodup.append h (List.nodup_singleton _) (by simpa using hm)

theorem foldl_groupStep_sum (tags : List String) :
    ∀ (groups : List TagCount) (t : String),
      (((tags.foldl groupStep groups).filter fun g => g._id = t).map fun g => g.count).sum =
        ((groups.filter fun g => g._id = t).map fun g => g.count).sum + tags.count t := by
  induction tags with
  | nil => intro groups t; simp
  | cons tag tags ih =>
    intro groups t
    rw [List.foldl_cons, ih, groupStep_sum, List.count_cons]
    by_cases h : t = tag
    · subst h; simp; omega
    · have h' : ¬ tag = t := fun e => h e.symm
      simp [h, h']

theorem group_eq_foldl (docs : List UnwoundStore) :
    group docs = (docs.map fun d => d.tags).foldl groupStep [] := by
  unfold group
  rw [List.foldl_map]

theorem unwind_tags (stores : List Store) :
    (unwind stores).map (fun d => d.tags) = stores.flatMap fun st => st.tags := by
  unfold unwind
  induction stores with
  | nil => rfl
  | cons st sts ih =>
    simp only [List.flatMap_cons, List.map_append, ih, List.map_map]
    congr 1
    simp [Function.comp_def]

/-- In a list with distinct keys, an entry holds the whole sum of its key. -/
theorem sum_filter_of_nodup (groups : List TagCount)
    (hnd : (groups.map fun g => g._id).Nodup) (e : TagCount) (he : e ∈ groups) :
    ((groups.filter fun g => g._id = e._id).map fun g => g.count).sum = e.count := by
  induction groups with
  | nil => simp at he
  | cons g gs ih =>
    rw [List.map_cons, List.nodup_cons] at hnd
    rcases List.mem_cons.1 he with rfl | hmem
    · have hnone : gs.filter (fun g => g._id = e._id) = [] := by
        rw [List.filter_eq_nil_iff]
        intro g hg hid
        exact hnd.1 (List.mem_map.2 ⟨g, hg, by simpa using hid⟩)
      simp [List.filter_cons, hnone]
    · have hne : ¬ g._id = e._id := fun hid =>
        hnd.1 (List.mem_map.2 ⟨e, hmem, hid.symm⟩)
      simp only [List.filter_cons, hne, decide_False, Bool.false_eq_true, if_false]
      exact ih hnd.2 hmem

/-- C7. `getTagsList` returns one entry per distinct tag occurring in some
store's tag list and no other entry, each with the number of occurrences of its
tag across all the tag lists as `count`, in order of non-increasing count; the
tag lists `[["a","b"],["a"]]` give `a` with 2, then `b` with 1. -/
theorem getTagsList_counts (stores : List Store) :
    ((getTagsList stores).map fun e => e._id).Nodup ∧
      (∀ t, t ∈ (getTagsList stores).map (fun e => e._id) ↔ ∃ st ∈ stores, t ∈ st.tags) ∧
      (∀ e ∈ getTagsList stores, e.count = (stores.flatMap fun st => st.tags).count e._id) ∧
      (getTagsList stores).Pairwise (fun a b => b.count ≤ a.count) ∧
      getTagsList [taggedStore 1 "x" ["a", "b"], taggedStore 2 "y" ["a"]] =
        [{ _id := "a", count := 2 }, { _id := "b", count := 1 }] := by
  have hperm : List.Perm (getTagsList stores) (group (unwind stores)) :=
    List.perm_insertionSort _ _
  have hgroup : group (unwind stores) =
      (stores.flatMap fun st => st.tags).foldl groupStep [] := by
    rw [group_eq_foldl, unwind_tags]
  have hnd : ((group (unwind stores)).map fun e => e._id).Nodup := by
    rw [hgroup]
    exact foldl_groupStep_ids_nodup _ [] List.nodup_nil
  refine ⟨?_, ?_, ?_, ?_, by decide⟩
  · exact ((hperm.map _).nodup_iff).2 hnd
  · intro t
    rw [(hperm.map _).mem_iff, hgroup, foldl_groupStep_ids_mem]
    simp [List.mem_flatMap]
  · intro e he
    have he' : e ∈ group (unwind stores) := hperm.mem_iff.1 he
    have hsum := sum_filter_of_nodup _ hnd e he'
    rw [hgroup, foldl_groupStep_sum] at hsum
    simpa using hsum.symm
  · have hsorted : (getTagsList stores).Sorted (fun a b => b.count ≤ a.count) :=
      @List.sorted_insertionSort _ (fun a b : TagCount => b.count ≤ a.count) _
        ⟨fun a b => Nat.le_total b.count a.count⟩
        ⟨fun _ _ _ hab hbc => Nat.le_trans hbc hab⟩ _
    exact hsorted

/-! ## Top-rated stores -/

theorem get?_one_isSome (rs : List Review) : (rs.get? 1).isSome = true ↔ 2 ≤ rs.length := by
  match rs with
  | [] => simp
  | [_] => simp
  | _ :: _ :: _ => simp

theorem mem_matchSecondReview_lookup (stores : List Store) (reviews : List Review)
    (d : StoreWithReviews) :
    d ∈ matchSecondReview (lookup reviews stores) ↔
      ∃ st ∈ stores, d = { store := st, reviews := joinedReviews reviews st } ∧
        2 ≤ (joinedReviews reviews st).length := by
  unfold matchSecondReview lookup
  rw [List.mem_filter, List.mem_map, get?_one_isSome]
  constructor
  · rintro ⟨⟨st, hst, rfl⟩, h⟩
    exact ⟨st, hst, rfl, h⟩
  · rintro ⟨st, hst, rfl, h⟩
    exact ⟨⟨st, hst, rfl⟩, h⟩

theorem avg_ratings (fl : ℚ → ℚ) (rs : List Review) (h : 2 ≤ rs.length) :
    avg fl (rs.map fun r => r.rating) = some (roundedMeanRating fl rs) := by
  unfold avg roundedMeanRating
  have hne : (rs.map fun r => r.rating).isEmpty = false := by
    cases rs with
    | nil => simp at h
    | cons r rs => rfl
  simp [hne]

theorem ratingLE_total (a b : Option ℚ) : ratingLE a b = true ∨ ratingLE b a = true := by
  cases a <;> cases b <;> simp [ratingLE]
  exact le_total _ _

theorem ratingLE_trans (a b c : Option ℚ) (hab : ratingLE a b = true)
    (hbc : ratingLE b c = true) : ratingLE a c = true := by
  cases a <;> cases b <;> cases c <;> simp_all [ratingLE]
  exact le_trans hab hbc

theorem sortByAverageRating_perm (docs : List TopStore) :
    List.Perm (sortByAverageRating docs) docs :=
  List.perm_insertionSort _ _

theorem sortByAverageRating_sorted (docs : List TopStore) :
    (sortByAverageRating docs).Pairwise
      (fun a b => ratingLE b.averageRating a.averageRating = true) :=
  @List.sorted_insertionSort _
    (fun a b : TopStore => ratingLE b.averageRating a.averageRating = true) _
    ⟨fun a b => ratingLE_total b.averageRating a.averageRating⟩
    ⟨fun _ _ _ hab hbc => ratingLE_trans _ _ _ hbc hab⟩ docs

theorem mem_projected (fl : ℚ → ℚ) (stores : List Store) (reviews : List Review)
    (e : TopStore) :
    e ∈ (matchSecondReview (lookup reviews stores)).map (project fl) ↔
      ∃ st ∈ stores, 2 ≤ (joinedReviews reviews st).length ∧
        e = project fl { store := st, reviews := joinedReviews reviews st } := by
  rw [List.mem_map]
  constructor
  · rintro ⟨d, hd, rfl⟩
    obtain ⟨st, hst, rfl, h⟩ := (mem_matchSecondReview_lookup _ _ _).1 hd
    exact ⟨st, hst, h, rfl⟩
  · rintro ⟨st, hst, h, rfl⟩
    exact ⟨_, (mem_matchSecondReview_lookup _ _ _).2 ⟨st, hst, rfl, h⟩, rfl⟩

theorem mem_getTopStores (fl : ℚ → ℚ) (stores : List Store) (reviews : List Review)
    (e : TopStore) (he : e ∈ getTopStores fl stores reviews) :
    ∃ st ∈ stores, 2 ≤ (joinedReviews reviews st).length ∧
      e = project fl { store := st, reviews := joinedReviews reviews st } := by
  rw [← mem_projected]
  exact (sortByAverageRating_perm _).mem_iff.1 (List.mem_of_mem_take he)

theorem length_projected (fl : ℚ → ℚ) (stores : List Store) (reviews : List Review) :
    ((matchSecondReview (lookup reviews stores)).map (project fl)).length =
      (stores.filter fun st => 2 ≤ (joinedReviews reviews st).length).length := by
  unfold matchSecondReview lookup
  rw [List.length_map, List.filter_map, List.length_map]
  congr 1
  apply List.filter_congr
  intro st _
  rw [Bool.eq_iff_iff]
  simp only [Function.comp_apply, get?_one_isSome, decide_eq_true_eq]
  rfl

/-! ### The stand-in rounding, evaluated -/

theorem binary64_of_binade (q : ℚ) (e : ℤ) (h1 : (2 : ℚ) ^ e ≤ |q|)
    (h2 : |q| < (2 : ℚ) ^ (e + 1)) :
    binary64 q = (roundHalfEven (q / 2 ^ (e - 52)) : ℚ) * 2 ^ (e - 52) := by
  have hpos : 0 < |q| := lt_of_lt_of_le (by positivity) h1
  have hlog : Int.log 2 |q| = e := by
    have ha : e ≤ Int.log 2 |q| :=
      (Int.zpow_le_iff_le_log (b := 2) (by norm_num) (x := e) hpos).1 (by simpa using h1)
    have hb : Int.log 2 |q| < e + 1 :=
      (Int.lt_zpow_iff_log_lt (b := 2) (by norm_num) (x := e + 1) hpos).1 (by simpa using h2)
    omega
  unfold binary64
  rw [hlog]

theorem binary64_four : binary64 4 = 4 := by
  rw [binary64_of_binade 4 2 (by norm_num [abs_of_pos]) (by norm_num [abs_of_pos])]
  have hf : ⌊(4 / 2 ^ ((2 : ℤ) - 52) : ℚ)⌋ = 4503599627370496 := by
    rw [Int.floor_eq_iff]; norm_num
  simp only [roundHalfEven, hf]
  norm_num

theorem binary64_nine : binary64 9 = 9 := by
  rw [binary64_of_binade 9 3 (by norm_num [abs_of_pos]) (by norm_num [abs_of_pos])]
  have hf : ⌊(9 / 2 ^ ((3 : ℤ) - 52) : ℚ)⌋ = 5066549580791808 := by
    rw [Int.floor_eq_iff]; norm_num
  simp only [roundHalfEven, hf]
  norm_num

theorem binary64_nine_halves : binary64 (9 / 2) = 9 / 2 := by
  rw [binary64_of_binade (9 / 2) 2 (by norm_num [abs_of_pos]) (by norm_num [abs_of_pos])]
  have hf : ⌊(9 / 2 / 2 ^ ((2 : ℤ) - 52) : ℚ)⌋ = 5066549580791808 := by
    rw [Int.floor_eq_iff]; norm_num
  simp only [roundHalfEven, hf]
  norm_num

theorem binary64_four_thirds :
    binary64 (4 / 3) = 6004799503160661 / 4503599627370496 := by
  rw [binary64_of_binade (4 / 3) 0 (by norm_num [abs_of_pos]) (by norm_num [abs_of_pos])]
  have hf : ⌊(4 / 3 / 2 ^ ((0 : ℤ) - 52) : ℚ)⌋ = 6004799503160661 := by
    rw [Int.floor_eq_iff]; norm_num
  simp only [roundHalfEven, hf]
  norm_num

theorem averageRating_of_mem (fl : ℚ → ℚ) (stores : List Store) (reviews : List Review)
    (e : TopStore) (he : e ∈ getTopStores fl stores reviews) :
    2 ≤ e.reviews.length ∧ e.averageRating = some (roundedMeanRating fl e.reviews) := by
  obtain ⟨st, -, h, rfl⟩ := mem_getTopStores fl stores reviews e he
  exact ⟨h, avg_ratings fl _ h⟩

theorem ratingLE_some_iff (x y : ℚ) : ratingLE (some x) (some y) = true ↔ x ≤ y := by
  simp [ratingLE]

theorem getTopStores_rated :
    getTopStores binary64 ratedStores ratedReviews = [cafeEntry] := by
  simp [getTopStores, ratedStores, ratedReviews, cafeEntry, lookup, matchSecondReview,
    project, limit, sortByAverageRating, sampleStore, avg]
  norm_num [binary64_nine, binary64_nine_halves]

theorem getTopStores_thirds :
    (getTopStores binary64 ratedStores thirdsReviews).map (fun e => e.averageRating) =
      [some (6004799503160661 / 4503599627370496)] := by
  simp [getTopStores, ratedStores, thirdsReviews, lookup, matchSecondReview,
    project, limit, sortByAverageRating, sampleStore, avg]
  norm_num [binary64_four, binary64_four_thirds]

/-- C5 (as amended). Every entry `getTopStores` returns comes from a store,
carries as `reviews` the reviews whose `store` is that store's id, at least two
of them, and has as `averageRating` the mean of their ratings as double
arithmetic yields it, which is the arithmetic mean whenever the total and the
mean are doubles; no entry comes from a store with fewer than two joined
reviews. -/
theorem getTopStores_entry (fl : ℚ → ℚ) (stores : List Store) (reviews : List Review)
    (e : TopStore) (he : e ∈ getTopStores fl stores reviews) :
    (∃ st ∈ stores, e._id = st._id ∧ e.name = st.name ∧ e.photo = st.photo ∧
        e.slug = st.slug ∧ e.reviews = joinedReviews reviews st) ∧
      (∀ r, r ∈ e.reviews ↔ r ∈ reviews ∧ r.store = e._id) ∧
      2 ≤ e.reviews.length ∧
      e.averageRating =
        some (fl (fl (e.reviews.map fun r => r.rating).sum / e.reviews.length)) ∧
      (fl (e.reviews.map fun r => r.rating).sum = (e.reviews.map fun r => r.rating).sum →
        fl (meanRating e.reviews) = meanRating e.reviews →
        e.averageRating = some (meanRating e.reviews)) ∧
      (∀ st : Store, (joinedReviews reviews st).length < 2 → e._id ≠ st._id) := by
  obtain ⟨hlen, havg⟩ := averageRating_of_mem fl stores reviews e he
  obtain ⟨st, hst, -, rfl⟩ := mem_getTopStores fl stores reviews e he
  refine ⟨⟨st, hst, rfl, rfl, rfl, rfl, rfl⟩, ?_, hlen, havg, ?_, ?_⟩
  · intro r
    simp [project, joinedReviews, List.mem_filter]
  · intro hsum hmean
    rw [havg]
    unfold roundedMeanRating
    rw [hsum]
    exact congrArg some hmean
  · intro st' hlt hid
    have hj : joinedReviews reviews st' = joinedReviews reviews st := by
      unfold joinedReviews
      have hid' : st._id = st'._id := hid
      rw [hid']
    rw [hj] at hlt
    have : 2 ≤ (joinedReviews reviews st).length := hlen
    omega

/-- Witness for C5: the store rated 4 and 5 is returned with the mean 9/2,
which is a double. -/
theorem getTopStores_entry_witness :
    cafeEntry ∈ getTopStores binary64 ratedStores ratedReviews ∧
      2 ≤ cafeEntry.reviews.length ∧
      cafeEntry.averageRating = some (meanRating cafeEntry.reviews) ∧
      meanRating cafeEntry.reviews = 9 / 2 :=
  have hmem : cafeEntry ∈ getTopStores binary64 ratedStores ratedReviews := by
    rw [getTopStores_rated]
    exact List.mem_singleton.2 rfl
  have hmean : meanRating cafeEntry.reviews = 9 / 2 := by
    norm_num [meanRating, cafeEntry]
  ⟨hmem, (getTopStores_entry binary64 ratedStores ratedReviews cafeEntry hmem).2.2.1,
    (getTopStores_entry binary64 ratedStores ratedReviews cafeEntry hmem).2.2.2.2.1
      (by norm_num [cafeEntry, binary64_nine])
      (by rw [hmean]; exact binary64_nine_halves),
    hmean⟩

/-- C5 as stated fails: for a store rated 1, 1 and 2 the arithmetic mean is
4/3, which is no double; `averageRating` is the double nearest to it. -/
theorem getTopStores_average_not_mean :
    (getTopStores binary64 ratedStores thirdsReviews).map (fun e => e.averageRating) =
        [some (6004799503160661 / 4503599627370496)] ∧
      (getTopStores binary64 ratedStores thirdsReviews).map
          (fun e => some (meanRating e.reviews)) = [some (4 / 3)] ∧
      (getTopStores binary64 ratedStores thirdsReviews).map (fun e => e.averageRating) ≠
        (getTopStores binary64 ratedStores thirdsReviews).map
          (fun e => some (meanRating e.reviews)) := by
  have hmean : (getTopStores binary64 ratedStores thirdsReviews).map
      (fun e => some (meanRating e.reviews)) = [some (4 / 3)] := by
    simp [getTopStores, ratedStores, thirdsReviews, lookup, matchSecondReview,
      project, limit, sortByAverageRating, sampleStore, meanRating]
    norm_num
  refine ⟨getTopStores_thirds, hmean, ?_⟩
  rw [getTopStores_thirds, hmean]
  norm_num

/-- C6. `getTopStores` returns at most 10 entries, as many as there are stores
with at least two joined reviews when these are fewer, in order of
non-increasing `averageRating`; a store with at least two joined reviews whose
entry is left out has an `averageRating` no higher than that of any entry
returned. -/
theorem getTopStores_ranking (fl : ℚ → ℚ) (stores : List Store) (reviews : List Review) :
    (getTopStores fl stores reviews).length ≤ 10 ∧
      (getTopStores fl stores reviews).length =
        min 10 (stores.filter fun st => 2 ≤ (joinedReviews reviews st).length).length ∧
      (getTopStores fl stores reviews).Pairwise
        (fun a b => ∃ x y, a.averageRating = some x ∧ b.averageRating = some y ∧ y ≤ x) ∧
      (∀ st ∈ stores, 2 ≤ (joinedReviews reviews st).length →
        project fl { store := st, reviews := joinedReviews reviews st } ∉
          getTopStores fl stores reviews →
        ∀ e ∈ getTopStores fl stores reviews,
          ∃ x y,
            (project fl { store := st, reviews := joinedReviews reviews st }).averageRating =
                some x ∧
              x = roundedMeanRating fl (joinedReviews reviews st) ∧
              e.averageRating = some y ∧ x ≤ y) := by
  have hsorted := sortByAverageRating_sorted
    ((matchSecondReview (lookup reviews stores)).map (project fl))
  have hperm := sortByAverageRating_perm
    ((matchSecondReview (lookup reviews stores)).map (project fl))
  have hlen : (getTopStores fl stores reviews).length =
      min 10 (stores.filter fun st => 2 ≤ (joinedReviews reviews st).length).length := by
    unfold getTopStores limit
    rw [List.length_take, hperm.length_eq, length_projected]
  refine ⟨?_, hlen, ?_, ?_⟩
  · rw [hlen]; exact Nat.min_le_left _ _
  · have htake : (getTopStores fl stores reviews).Pairwise
        (fun a b => ratingLE b.averageRating a.averageRating = true) :=
      hsorted.sublist (List.take_sublist _ _)
    refine htake.imp_of_mem ?_
    intro a b ha hb hab
    obtain ⟨-, ha'⟩ := averageRating_of_mem fl stores reviews a ha
    obtain ⟨-, hb'⟩ := averageRating_of_mem fl stores reviews b hb
    rw [ha', hb', ratingLE_some_iff] at hab
    exact ⟨_, _, ha', hb', hab⟩
  · intro st hst helig hout e he
    obtain ⟨-, he'⟩ := averageRating_of_mem fl stores reviews e he
    have hst' : (project fl { store := st, reviews := joinedReviews reviews st }).averageRating =
        some (roundedMeanRating fl (joinedReviews reviews st)) := avg_ratings fl _ helig
    refine ⟨_, _, hst', rfl, he', ?_⟩
    have hin : project fl { store := st, reviews := joinedReviews reviews st } ∈
        sortByAverageRating ((matchSecondReview (lookup reviews stores)).map (project fl)) :=
      hperm.mem_iff.2 ((mem_projected _ _ _ _).2 ⟨st, hst, helig, rfl⟩)
    rw [← List.take_append_drop 10
      (sortByAverageRating
        ((matchSecondReview (lookup reviews stores)).map (project fl)))] at hin hsorted
    rw [List.pairwise_append] at hsorted
    have hdrop := (List.mem_append.1 hin).resolve_left hout
    have hle := hsorted.2.2 e he _ hdrop
    rw [hst', he', ratingLE_some_iff] at hle
    exact hle

/-! ## Account update -/

theorem truthy_iff (v : Option String) : truthy v = true ↔ ∃ p, v = some p ∧ p ≠ "" := by
  cases v with
  | none => simp [truthy]
  | some s => simp [truthy]

theorem setPath_others (schema : UserSchema) (u : User) (path : String) (value : Option String) :
    (setPath schema u path value).others = u.others := by
  unfold setPath
  split
  · rfl
  · split
    · rfl
    · split <;> rfl

theorem applySet_others (schema : UserSchema) (set : List (String × Option String)) :
    ∀ u : User, (applySet schema u set).others = u.others := by
  induction set with
  | nil => intro u; rfl
  | cons kv set ih =>
    intro u
    unfold applySet at ih ⊢
    rw [List.foldl_cons, ih, setPath_others]

theorem setPath_photo (schema : UserSchema) (u : User) (path : String) (value : Option String)
    (h : path ≠ "photo") : (setPath schema u path value).photo = u.photo := by
  unfold setPath
  split
  · rfl
  · split
    · rfl
    · rfl

theorem applySet_photo (schema : UserSchema) (set : List (String × Option String))
    (h : "photo" ∉ set.map Prod.fst) :
    ∀ u : User, (applySet schema u set).photo = u.photo := by
  induction set with
  | nil => intro u; rfl
  | cons kv set ih =>
    intro u
    rw [List.map_cons, List.mem_cons, not_or] at h
    unfold applySet at ih ⊢
    rw [List.foldl_cons, ih h.2, setPath_photo schema u kv.1 kv.2 (fun e => h.1 e.symm)]

theorem updateFirst_map (p : User → Bool) (f : User → User) {β : Type} (g : User → β)
    (hf : ∀ u, g (f u) = g u) (users : List User) :
    (updateFirst p f users).map g = users.map g := by
  induction users with
  | nil => rfl
  | cons u us ih =>
    unfold updateFirst
    split
    · simp [hf]
    · simp [ih]

theorem findOneAndUpdate_map (schema : UserSchema) (users : List User) (id : Nat)
    (set : List (String × Option String)) {β : Type} (g : User → β)
    (hg : ∀ u, g (applySet schema u set) = g u) :
    (findOneAndUpdate schema users id set).1.map g = users.map g := by
  unfold findOneAndUpdate
  split
  · rfl
  · split
    · rfl
    · exact updateFirst_map _ _ g hg users

theorem updateAccount_fst (schema : UserSchema) (users : List User) (req : Request) :
    (updateAccount schema users req).1 =
      (findOneAndUpdate schema users req.user._id (updates req)).1 := by
  unfold updateAccount
  split <;> simp_all

theorem mem_updates_keys (req : Request) :
    "photo" ∈ (updates req).map Prod.fst ↔ truthy req.body.photo = true := by
  unfold updates
  by_cases h : truthy req.body.photo = true
  · simp [h]
  · simp [h]

/-- C8. The update set of `updateAccount` holds `name` and `email` from the
request body whatever they are, and `photo` (with the body's value) exactly
when the body carries a photo, a non-empty file name; the update leaves every
field of every user other than name, email and photo as it was, and without a
photo in the request leaves every stored photo as it was. -/
theorem updateAccount_updates (schema : UserSchema) (users : List User) (req : Request) :
    ("name", req.body.name) ∈ updates req ∧
      ("email", req.body.email) ∈ updates req ∧
      ("photo" ∈ (updates req).map Prod.fst ↔ ∃ p, req.body.photo = some p ∧ p ≠ "") ∧
      (∀ kv ∈ updates req, kv.1 = "photo" → kv.2 = req.body.photo) ∧
      (updateAccount schema users req).1.map User.others = users.map User.others ∧
      ((¬ ∃ p, req.body.photo = some p ∧ p ≠ "") →
        (updateAccount schema users req).1.map (fun u => u.photo) =
          users.map (fun u => u.photo)) := by
  refine ⟨?_, ?_, ?_, ?_, ?_, ?_⟩
  · unfold updates; split <;> simp
  · unfold updates; split <;> simp
  · rw [mem_updates_keys, truthy_iff]
  · intro kv hkv hkey
    unfold updates at hkv
    split at hkv
    · simp only [List.mem_append, List.mem_cons, List.mem_singleton, List.not_mem_nil,
        or_false] at hkv
      rcases hkv with (rfl | rfl) | rfl
      · simp at hkey
      · simp at hkey
      · rfl
    · simp only [List.mem_cons, List.mem_singleton, List.not_mem_nil, or_false] at hkv
      rcases hkv with rfl | rfl
      · simp at hkey
      · simp at hkey
  · rw [updateAccount_fst]
    exact findOneAndUpdate_map _ _ _ _ _ (applySet_others schema _)
  · intro hno
    rw [updateAccount_fst]
    apply findOneAndUpdate_map
    apply applySet_photo
    rw [mem_updates_keys, truthy_iff]
    exact hno

/-- An account update without a photo keeps the stored photo and changes the
name and the email. -/
theorem updateAccount_keeps_photo :
    (updateAccount sampleSchema [sampleUser 1 (some "old.png")] (sampleRequest 1)).1 =
      [{ sampleUser 1 (some "old.png") with
          name := some "Ann B", email := some "ann.b@example.com" }] := by
  decide

/-- C9 (as amended). An account update whose user id matches no user writes
nothing and creates no user: the collection is as it was. No NotFound condition
is raised: when the update passes the validators the handler flashes success
and redirects back, and otherwise it fails with the validation error. -/
theorem updateAccount_missing_user (schema : UserSchema) (users : List User) (req : Request)
    (hmissing : ∀ u ∈ users, u._id ≠ req.user._id) :
    (updateAccount schema users req).1 = users ∧
      (updateAccount schema users req).2 =
        if schema.runValidators (updates req) = true then
          .ok { flashes := [("success", "Successfully updated your account.")],
                redirect := some "back" }
        else .error "ValidationError" := by
  have hfind : (users.find? fun u => u._id == req.user._id) = none := by
    rw [List.find?_eq_none]
    intro u hu
    simpa using hmissing u hu
  unfold updateAccount findOneAndUpdate
  by_cases hv : schema.runValidators (updates req) = true
  · simp [hv, hfind]
  · simp [hv]

/-- Witness for C9: an update by user 2 when only user 1 exists. -/
theorem updateAccount_missing_user_witness :
    (updateAccount sampleSchema [sampleUser 1 (some "old.png")] (sampleRequest 2)).1 =
      [sampleUser 1 (some "old.png")] :=
  (updateAccount_missing_user sampleSchema [sampleUser 1 (some "old.png")] (sampleRequest 2)
    (by decide)).1

/-- C9 as stated fails: an update by user 2 when only user 1 exists does not
fail; the handler reports success. -/
theorem updateAccount_missing_user_succeeds :
    (∀ u ∈ [sampleUser 1 (some "old.png")], u._id ≠ (sampleRequest 2).user._id) ∧
      (updateAccount sampleSchema [sampleUser 1 (some "old.png")] (sampleRequest 2)).2 =
        .ok { flashes := [("success", "Successfully updated your account.")],
              redirect := some "back" } ∧
      ¬ ∃ e, (updateAccount sampleSchema [sampleUser 1 (some "old.png")]
        (sampleRequest 2)).2 = .error e := by
  refine ⟨by decide, rfl, ?_⟩
  rintro ⟨e, he⟩
  have hok : (updateAccount sampleSchema [sampleUser 1 (some "old.png")]
      (sampleRequest 2)).2 =
      .ok { flashes := [("success", "Successfully updated your account.")],
            redirect := some "back" } := rfl
  rw [hok] at he
  cases he

/-! ## Photo intake -/

theorem isPrefixOf_image_iff (mimetype : String) :
    "image/".toList.isPrefixOf mimetype.toList = true ↔
      ∃ rest : String, mimetype = "image/" ++ rest := by
  rw [List.isPrefixOf_iff_prefix]
  constructor
  · rintro ⟨t, ht⟩
    refine ⟨String.mk t, String.ext ?_⟩
    rw [String.data_append]
    exact ht.symm
  · rintro ⟨rest, rfl⟩
    exact ⟨rest.toList, (String.data_append _ _).symm⟩

/-- C10. The upload filter accepts a file exactly when its media type starts
with `image/`, and otherwise passes on the error object with the message
"That filetype isn't allowed !" together with `false`; a `text/plain` file
leaves `upload` with that error and the request as it was, so that photo
intake ends there, and `resize`, were it run on a request without a file, sets
no file name and writes nothing. -/
theorem fileFilter_image_only (file : UploadedFile) :
    (fileFilter file = (none, true) ↔ ∃ rest : String, file.mimetype = "image/" ++ rest) ∧
      ((¬ ∃ rest : String, file.mimetype = "image/" ++ rest) →
        fileFilter file = (some { message := "That filetype isn't allowed !" }, false)) ∧
      (∀ (jimpRead : List Nat → Bool) (uuid : String) (buffer : List Nat) (st : Intake),
        upload (some { mimetype := "text/plain", buffer := buffer }) st =
            { st with error := some (.filter { message := "That filetype isn't allowed !" }) } ∧
          photoIntake jimpRead uuid (some { mimetype := "text/plain", buffer := buffer }) st =
            { st with error := some (.filter { message := "That filetype isn't allowed !" }) } ∧
          (st.req.file = none →
            resize jimpRead uuid
                (upload (some { mimetype := "text/plain", buffer := buffer }) st) =
              upload (some { mimetype := "text/plain", buffer := buffer }) st)) := by
  have hacc : fileFilter file = (none, true) ↔
      "image/".toList.isPrefixOf file.mimetype.toList = true := by
    unfold fileFilter
    by_cases h : "image/".toList.isPrefixOf file.mimetype.toList = true
    · simp only [h, if_true]
    · simp only [h, if_false, Prod.mk.injEq, Bool.false_eq_true, and_false, reduceCtorEq]
  refine ⟨hacc.trans (isPrefixOf_image_iff _), ?_, ?_⟩
  · intro hno
    have h : ¬ "image/".toList.isPrefixOf file.mimetype.toList = true :=
      fun h => hno ((isPrefixOf_image_iff _).1 h)
    unfold fileFilter
    simp only [h, if_false, Bool.false_eq_true]
  · intro jimpRead uuid buffer st
    refine ⟨rfl, rfl, ?_⟩
    intro hfile
    have hup : upload (some { mimetype := "text/plain", buffer := buffer }) st =
        { st with error := some (.filter { message := "That filetype isn't allowed !" }) } :=
      rfl
    rw [hup]
    unfold resize
    simp only [hfile]

/-- A `text/plain` upload leaves the request and the upload folder as they
were, and an `image/png` upload is written under its new name. -/
theorem photoIntake_examples :
    photoIntake (fun _ => true) "u" (some { mimetype := "text/plain", buffer := [] })
        sampleIntake =
      { sampleIntake with
        error := some (.filter { message := "That filetype isn't allowed !" }) } ∧
    (photoIntake (fun _ => true) "u" (some { mimetype := "image/png", buffer := [] })
        sampleIntake).uploads = ["./public/uploads/u.png"] ∧
    (photoIntake (fun _ => true) "u" (some { mimetype := "image/png", buffer := [] })
        sampleIntake).req.body.photo = some "u.png" := by
  decide

end Delicious
